import Mathlib

/-!
Verification of the timegaps age-bucketed retention classifier and its
command-line rule parser.

The rule parser (`parse_rules_from_cmdline`) is embedded from
`src/timegaps.py`.  The classification core (`TimeFilter`) is not part of
the sources at hand (only its caller is), so its data model and the
`filter` algorithm are modelled from the specification text.
-/

namespace Timegaps

/-- Modelled from the spec: the six time categories; the module defining
`TimeFilter` is missing from the sources, only its caller is present.
Linear categories are hours, days, weeks, months, years; `recent` is the
special non-linear category for items younger than one hour. -/
inductive Category
  | recent
  | hours
  | days
  | weeks
  | months
  | years
deriving DecidableEq

/-- Modelled from the spec: duration in seconds of each linear category
(hours=3600, days=86400, weeks=604800, months=2592000, years=31536000);
`recent` has no duration (represented by 0, never used). -/
def Category.duration : Category → Nat
  | .recent => 0
  | .hours => 3600
  | .days => 86400
  | .weeks => 604800
  | .months => 2592000
  | .years => 31536000

/-- Modelled from the spec: the linear categories in ascending-duration
order (youngest first); this order is the priority order of the
classifier. -/
def linearCategories : List Category :=
  [.hours, .days, .weeks, .months, .years]

/-- Modelled from the spec: the six recognized category names
(`TimeFilter.valid_categories` in the missing core module; the names are
also listed in the EXTENDED_HELP text of `src/timegaps.py`). -/
def valid_categories : List String :=
  ["recent", "hours", "days", "weeks", "months", "years"]

/-- Modelled from the spec: a rule set maps each category to a
non-negative maximum slot count; unspecified categories are 0. -/
structure Rules where
  recent : Nat
  hours : Nat
  days : Nat
  weeks : Nat
  months : Nat
  years : Nat
deriving DecidableEq

def Rules.maxcount (r : Rules) : Category → Nat
  | .recent => r.recent
  | .hours => r.hours
  | .days => r.days
  | .weeks => r.weeks
  | .months => r.months
  | .years => r.years

/-- The all-zero-quota rule set (the effect of an empty rules mapping). -/
def Rules.zero : Rules := ⟨0, 0, 0, 0, 0, 0⟩

/-- Modelled from the spec: an item is an opaque identifier together with
a timestamp in seconds since an epoch. -/
structure Item where
  text : String
  timestamp : Int
deriving DecidableEq

/-- An input item tagged with its position in the input list, so that
distinct input entries remain distinct values (Python items are distinct
objects even when equal in content). -/
abbrev IItem := Nat × Item

/-- Modelled from the spec: `age_seconds(item, reference_time) =
reference_time - item.timestamp`. -/
def age (ref : Int) (it : Item) : Int := ref - it.timestamp

/-- Modelled from the spec: `unit_age(age_seconds, category) =
floor(age_seconds / category.duration)`; `Int.fdiv` is floor division. -/
def unit_age (a : Int) (c : Category) : Int := Int.fdiv a (c.duration : Int)

/-- Tag each item of a list with consecutive indices starting at `i`. -/
def enumFrom (i : Nat) : List Item → List IItem
  | [] => []
  | x :: xs => (i, x) :: enumFrom (i + 1) xs

/-- Insert an item into a list sorted ascending by age, after all items of
smaller or equal age (stable: earlier items stay first on ties). -/
def insertByAge (ref : Int) (x : IItem) : List IItem → List IItem
  | [] => [x]
  | y :: ys =>
    if age ref y.2 < age ref x.2 then y :: insertByAge ref x ys
    else x :: y :: ys

/-- Stable insertion sort, ascending by age (newest first). -/
def sortByAge (ref : Int) : List IItem → List IItem
  | [] => []
  | x :: xs => insertByAge ref x (sortByAge ref xs)

/-- Fold keeping the first element of minimal age. -/
def minAgeAcc (ref : Int) (b : IItem) : List IItem → IItem
  | [] => b
  | y :: ys => minAgeAcc ref (if age ref y.2 < age ref b.2 then y else b) ys

/-- The first item of minimal age in a list (`none` on the empty list):
the winner of a bucket, ties resolved by input order. -/
def minAgeFirst (ref : Int) : List IItem → Option IItem
  | [] => none
  | x :: xs => some (minAgeAcc ref x xs)

/-- Modelled from the spec: the verdict of one classification run for one
item, with the bucket the item was attributed to. -/
inductive Verdict
  | acceptedRecent
  | rejectedRecent
  | acceptedIn (c : Category) (n : Int)
  | rejectedIn (c : Category) (n : Int)
  | rejectedUnclassified
deriving DecidableEq

/-- Modelled from the spec: an item is consumed by linear category `c`
with quota `M` when its unit-age lies in `[1, M]`. -/
def consumedCond (ref : Int) (M : Nat) (c : Category) (it : IItem) : Bool :=
  decide (1 ≤ unit_age (age ref it.2) c) &&
    decide (unit_age (age ref it.2) c ≤ (M : Int))

/-- The items of `pool` mapped to sub-index `n` of category `c`. -/
def bucket (ref : Int) (c : Category) (n : Int) (pool : List IItem) :
    List IItem :=
  pool.filter (fun jt => decide (unit_age (age ref jt.2) c = n))

/-- Modelled from the spec: within the items consumed by category `c`,
the item of smallest age in its bucket is accepted, the others are
rejected. -/
def passVerdict (ref : Int) (c : Category) (consumed : List IItem)
    (it : IItem) : Verdict :=
  let n := unit_age (age ref it.2) c
  if minAgeFirst ref (bucket ref c n consumed) = some it then
    .acceptedIn c n
  else
    .rejectedIn c n

/-- Modelled from the spec: process the linear categories in priority
order; each category consumes the not-yet-consumed items whose unit-age
lies in `[1, maxcount]`, accepts one winner per occupied bucket, and
passes the rest of the pool on; items left after the last category are
rejected as unclassifiable. -/
def processCats (ref : Int) (maxc : Category → Nat) :
    List Category → List IItem → List (IItem × Verdict)
  | [], pool => pool.map (fun it => (it, .rejectedUnclassified))
  | c :: cs, pool =>
    let consumed := pool.filter (consumedCond ref (maxc c) c)
    let remaining := pool.filter (fun it => !consumedCond ref (maxc c) c it)
    consumed.map (fun it => (it, passVerdict ref c consumed it))
      ++ processCats ref maxc cs remaining

/-- Modelled from the spec: `recent` eligibility is age < 3600 seconds
(negative ages qualify). -/
def recentEligible (ref : Int) (it : IItem) : Bool :=
  decide (age ref it.2 < 3600)

/-- Modelled from the spec: one classification run.  The `recent`
category is processed first: all recent-eligible items are consumed, the
`maxcount.recent` newest of them are accepted; the remaining items go
through the linear categories in priority order. -/
def classifyRun (items : List Item) (rules : Rules) (ref : Int) :
    List (IItem × Verdict) :=
  let ii := enumFrom 0 items
  let sortedR := sortByAge ref (ii.filter (recentEligible ref))
  (sortedR.take rules.recent).map (fun it => (it, .acceptedRecent))
    ++ (sortedR.drop rules.recent).map (fun it => (it, .rejectedRecent))
    ++ processCats ref rules.maxcount linearCategories
        (ii.filter (fun it => !recentEligible ref it))

def Verdict.isAccepted : Verdict → Bool
  | .acceptedRecent => true
  | .acceptedIn _ _ => true
  | _ => false

/-- `true` iff the verdict is an acceptance attributed to category `c`. -/
def acceptedFor (c : Category) : Verdict → Bool
  | .acceptedRecent => c == .recent
  | .acceptedIn d _ => c == d
  | _ => false

/-- Modelled from the spec: `filter(items, rule_set, reference_time)`
returns the accepted and the rejected items. -/
def TimeFilter.filter (items : List Item) (rules : Rules) (ref : Int) :
    List IItem × List IItem :=
  let run := classifyRun items rules ref
  ((run.filter (fun p => p.2.isAccepted)).map (fun p => p.1),
    (run.filter (fun p => !p.2.isAccepted)).map (fun p => p.1))

/-! ## The command-line rule parser, embedded from `src/timegaps.py` -/

def isLowerAZ (ch : Char) : Bool :=
  decide ('a' ≤ ch) && decide (ch ≤ 'z')

def isDigit09 (ch : Char) : Bool :=
  decide ('0' ≤ ch) && decide (ch ≤ '9')

/-- Leftmost match of the pattern `([a-z]+)([0-9]+)` in a string, as
Python's `re.search` computes it for this pattern: scanning left to
right, `acc` holds (reversed) the current maximal run of lowercase
letters; the first digit that immediately follows a non-empty letter run
produces the match, whose second group is the maximal digit run from
there.  (Backtracking inside the letter run can never succeed because
letters and digits are disjoint, so this scan is exactly `re.search`.) -/
def searchAux (acc : List Char) : List Char → Option (List Char × List Char)
  | [] => none
  | ch :: rest =>
    if isLowerAZ ch then searchAux (ch :: acc) rest
    else if isDigit09 ch && !acc.isEmpty then
      some (acc.reverse, ch :: rest.takeWhile isDigit09)
    else searchAux [] rest

/-- `re.search(r'([a-z]+)([0-9]+)', t)` from line 314 of
`src/timegaps.py`: the two captured groups, or `none`. -/
def searchCatCount (t : List Char) : Option (List Char × List Char) :=
  searchAux [] t

/-- `int` applied to a non-empty string of decimal digits. -/
def digitsToNat (l : List Char) : Nat :=
  l.foldl (fun a ch => a * 10 + (ch.toNat - 48)) 0

/-- The `ValueError` cases raised by `parse_rules_from_cmdline`. -/
inductive RuleError
  | emptyToken
  | invalidCategory (catid : String)
  | invalidToken (token : String)
deriving DecidableEq

/-- Python `s.split(",")`: empty tokens are kept, the result is never
empty (`[""]` for the empty string). -/
def splitOnComma : List Char → List (List Char)
  | [] => [[]]
  | ch :: rest =>
    if ch = ',' then [] :: splitOnComma rest
    else
      match splitOnComma rest with
      | t :: ts => (ch :: t) :: ts
      | [] => [[ch]]

/-- The body of the token loop of `parse_rules_from_cmdline`
(lines 310-323 of `src/timegaps.py`): an empty token raises; otherwise
the regex is searched; on a match the category name is checked against
`valid_categories`; a token without a match raises. -/
def parseToken (t : List Char) : Except RuleError (String × Nat) :=
  if t.isEmpty then .error .emptyToken
  else
    match searchCatCount t with
    | some (letters, digits) =>
      if String.mk letters ∈ valid_categories then
        .ok (String.mk letters, digitsToNat digits)
      else .error (.invalidCategory (String.mk letters))
    | none => .error (.invalidToken (String.mk t))

/-- `rules[catid] = int(timecount)` on a Python dict: if the key is
present its value is replaced in place, otherwise the pair is appended. -/
def insertRule (rules : List (String × Nat)) (k : String) (v : Nat) :
    List (String × Nat) :=
  if rules.any (fun p => p.1 == k) then
    rules.map (fun p => if p.1 == k then (k, v) else p)
  else rules ++ [(k, v)]

/-- The token loop of `parse_rules_from_cmdline`: tokens are processed
left to right, the first failing token aborts with its error. -/
def parseGo : List (List Char) → List (String × Nat) →
    Except RuleError (List (String × Nat))
  | [], rules => .ok rules
  | t :: ts, rules =>
    match parseToken t with
    | .ok kv => parseGo ts (insertRule rules kv.1 kv.2)
    | .error e => .error e

/-- `parse_rules_from_cmdline` from `src/timegaps.py` (lines 301-324):
split the string on commas and process every token. -/
def parse_rules_from_cmdline (s : List Char) :
    Except RuleError (List (String × Nat)) :=
  parseGo (splitOnComma s) []

/-- Extract the linear category a verdict is attributed to, if any. -/
def Verdict.cat? : Verdict → Option Category
  | .acceptedIn c _ => some c
  | .rejectedIn c _ => some c
  | _ => none

/-! ## Basic lemmas: enumeration, sorting, minimum selection -/

theorem enumFrom_fst_ge {i : Nat} {l : List Item} :
    ∀ p ∈ enumFrom i l, i ≤ p.1 := by
  induction l generalizing i with
  | nil => intro p hp; cases hp
  | cons x xs ih =>
    intro p hp
    rcases List.mem_cons.mp hp with rfl | hp
    · exact Nat.le_refl _
    · exact Nat.le_of_succ_le (ih p hp)

theorem enumFrom_nodup {i : Nat} {l : List Item} : (enumFrom i l).Nodup := by
  induction l generalizing i with
  | nil => exact List.nodup_nil
  | cons x xs ih =>
    refine List.nodup_cons.mpr ⟨?_, ih⟩
    intro hmem
    have := enumFrom_fst_ge _ hmem
    omega

theorem enumFrom_length {i : Nat} {l : List Item} :
    (enumFrom i l).length = l.length := by
  induction l generalizing i with
  | nil => rfl
  | cons x xs ih => simp [enumFrom, ih]

theorem insertByAge_perm (ref : Int) (x : IItem) (l : List IItem) :
    List.Perm (insertByAge ref x l) (x :: l) := by
  induction l with
  | nil => exact List.Perm.refl _
  | cons y ys ih =>
    simp only [insertByAge]
    split
    · exact ((ih.cons y).trans (List.Perm.swap x y ys))
    · exact List.Perm.refl _

theorem sortByAge_perm (ref : Int) (l : List IItem) :
    List.Perm (sortByAge ref l) l := by
  induction l with
  | nil => exact List.Perm.refl _
  | cons x xs ih =>
    exact (insertByAge_perm ref x (sortByAge ref xs)).trans (ih.cons x)

theorem minAgeAcc_mem (ref : Int) (l : List IItem) (b : IItem) :
    minAgeAcc ref b l = b ∨ minAgeAcc ref b l ∈ l := by
  induction l generalizing b with
  | nil => exact Or.inl rfl
  | cons y ys ih =>
    simp only [minAgeAcc]
    rcases ih (if age ref y.2 < age ref b.2 then y else b) with h | h
    · rw [h]
      split
      · exact Or.inr (List.mem_cons_self _ _)
      · exact Or.inl rfl
    · exact Or.inr (List.mem_cons_of_mem _ h)

theorem minAgeAcc_le (ref : Int) (l : List IItem) (b : IItem) :
    age ref (minAgeAcc ref b l).2 ≤ age ref b.2 ∧
      ∀ y ∈ l, age ref (minAgeAcc ref b l).2 ≤ age ref y.2 := by
  induction l generalizing b with
  | nil => exact ⟨le_refl _, by intro y hy; cases hy⟩
  | cons y ys ih =>
    simp only [minAgeAcc]
    obtain ⟨h1, h2⟩ := ih (if age ref y.2 < age ref b.2 then y else b)
    constructor
    · refine le_trans h1 ?_
      split <;> omega
    · intro z hz
      rcases List.mem_cons.mp hz with rfl | hz
      · refine le_trans h1 ?_
        split <;> omega
      · exact h2 z hz

theorem minAgeFirst_mem {ref : Int} {l : List IItem} {w : IItem}
    (h : minAgeFirst ref l = some w) : w ∈ l := by
  cases l with
  | nil => cases h
  | cons x xs =>
    simp only [minAgeFirst, Option.some_inj] at h
    rcases minAgeAcc_mem ref xs x with hm | hm
    · rw [h] at hm; rw [← hm]; exact List.mem_cons_self _ _
    · rw [h] at hm; exact List.mem_cons_of_mem _ hm

theorem minAgeFirst_le {ref : Int} {l : List IItem} {w : IItem}
    (h : minAgeFirst ref l = some w) :
    ∀ y ∈ l, age ref w.2 ≤ age ref y.2 := by
  cases l with
  | nil => cases h
  | cons x xs =>
    simp only [minAgeFirst, Option.some_inj] at h
    obtain ⟨h1, h2⟩ := minAgeAcc_le ref xs x
    intro y hy
    rcases List.mem_cons.mp hy with rfl | hy
    · rw [← h]; exact h1
    · rw [← h]; exact h2 y hy

theorem minAgeFirst_isSome {ref : Int} {l : List IItem} (h : l ≠ []) :
    ∃ w, minAgeFirst ref l = some w := by
  cases l with
  | nil => exact absurd rfl h
  | cons x xs => exact ⟨_, rfl⟩

/-! ## Structural lemmas about the linear-category passes -/

theorem map_fst_tag (l : List IItem) (f : IItem → Verdict) :
    ((l.map (fun it => (it, f it))).map (fun p => p.1)) = l := by
  induction l with
  | nil => rfl
  | cons x xs ih => simp [ih]

theorem passVerdict_cat (ref : Int) (c : Category) (consumed : List IItem)
    (it : IItem) : (passVerdict ref c consumed it).cat? = some c := by
  simp only [passVerdict]
  split <;> rfl

theorem passVerdict_eq (ref : Int) (c : Category) (consumed : List IItem)
    (it : IItem) :
    passVerdict ref c consumed it = .acceptedIn c (unit_age (age ref it.2) c) ∨
      passVerdict ref c consumed it = .rejectedIn c (unit_age (age ref it.2) c) := by
  simp only [passVerdict]
  split
  · exact Or.inl rfl
  · exact Or.inr rfl

theorem processCats_fst_perm (ref : Int) (maxc : Category → Nat)
    (cats : List Category) (pool : List IItem) :
    List.Perm ((processCats ref maxc cats pool).map (fun p => p.1)) pool := by
  induction cats generalizing pool with
  | nil => rw [processCats, map_fst_tag]
  | cons c cs ih =>
    simp only [processCats, List.map_append, map_fst_tag]
    exact (List.Perm.append_left _ (ih _)).trans (List.filter_append_perm _ pool)

theorem processCats_fst_mem {ref : Int} {maxc : Category → Nat}
    {cats : List Category} {pool : List IItem} {p : IItem × Verdict}
    (hp : p ∈ processCats ref maxc cats pool) : p.1 ∈ pool :=
  (processCats_fst_perm ref maxc cats pool).mem_iff.mp
    (List.mem_map_of_mem (fun p => p.1) hp)

theorem processCats_verdict {ref : Int} {maxc : Category → Nat} :
    ∀ {cats : List Category} {pool : List IItem} {p : IItem × Verdict},
    p ∈ processCats ref maxc cats pool →
    p.2 = .rejectedUnclassified ∨
      ∃ c, c ∈ cats ∧ consumedCond ref (maxc c) c p.1 = true ∧
        (p.2 = .acceptedIn c (unit_age (age ref p.1.2) c) ∨
          p.2 = .rejectedIn c (unit_age (age ref p.1.2) c)) := by
  intro cats
  induction cats with
  | nil =>
    intro pool p hp
    simp only [processCats, List.mem_map] at hp
    obtain ⟨it, _, rfl⟩ := hp
    exact Or.inl rfl
  | cons c cs ih =>
    intro pool p hp
    simp only [processCats, List.mem_append, List.mem_map] at hp
    rcases hp with ⟨it, hit, rfl⟩ | hp
    · refine Or.inr ⟨c, List.mem_cons_self c cs, ?_, ?_⟩
      · exact (List.mem_filter.mp hit).2
      · exact passVerdict_eq ref c _ it
    · rcases ih hp with h | ⟨c2, hc2, hcond, htag⟩
      · exact Or.inl h
      · exact Or.inr ⟨c2, List.mem_cons_of_mem c hc2, hcond, htag⟩

theorem processCats_cat_mem {ref : Int} {maxc : Category → Nat}
    {cats : List Category} {pool : List IItem} {p : IItem × Verdict}
    {c : Category} (hp : p ∈ processCats ref maxc cats pool)
    (hc : p.2.cat? = some c) : c ∈ cats := by
  rcases processCats_verdict hp with h | ⟨c2, hc2, _, htag⟩
  · rw [h] at hc; cases hc
  · rcases htag with h | h <;> rw [h] at hc <;>
      simp only [Verdict.cat?, Option.some_inj] at hc <;> rwa [← hc]

theorem processCats_tag_cond {ref : Int} {maxc : Category → Nat}
    {cats : List Category} {pool : List IItem} {p : IItem × Verdict}
    {c : Category} {n : Int} (hp : p ∈ processCats ref maxc cats pool)
    (htag : p.2 = .acceptedIn c n ∨ p.2 = .rejectedIn c n) :
    consumedCond ref (maxc c) c p.1 = true ∧
      n = unit_age (age ref p.1.2) c := by
  rcases processCats_verdict hp with h | ⟨c2, _, hcond, htag2⟩
  · rcases htag with h2 | h2 <;> rw [h2] at h <;> cases h
  · rcases htag with h2 | h2 <;> rcases htag2 with h3 | h3 <;>
      rw [h2] at h3 <;> cases h3 <;> exact ⟨hcond, rfl⟩

theorem processCats_consumed_not_later {ref : Int} {maxc : Category → Nat} :
    ∀ {cats : List Category} {pool : List IItem} {p : IItem × Verdict}
    {c c2 : Category},
    cats.Nodup → List.Sublist [c, c2] cats →
    p ∈ processCats ref maxc cats pool →
    p.2.cat? = some c2 →
    consumedCond ref (maxc c) c p.1 = false := by
  intro cats
  induction cats with
  | nil =>
    intro pool p c c2 _ hsub
    rw [List.sublist_nil] at hsub
    cases hsub
  | cons x cs ih =>
    intro pool p c c2 hnd hsub hp hcat
    have hx : x ∉ cs := (List.nodup_cons.mp hnd).1
    have hcs : cs.Nodup := (List.nodup_cons.mp hnd).2
    simp only [processCats, List.mem_append, List.mem_map] at hp
    cases hsub with
    | cons _ htail =>
      have hc2cs : c2 ∈ cs := htail.subset (by simp)
      rcases hp with ⟨it, _, rfl⟩ | hp
      · rw [passVerdict_cat] at hcat
        rw [Option.some_inj] at hcat
        exact absurd (hcat ▸ hc2cs) hx
      · exact ih hcs htail hp hcat
    | cons₂ _ htail =>
      have hc2cs : c2 ∈ cs := htail.subset (by simp)
      rcases hp with ⟨it, _, rfl⟩ | hp
      · rw [passVerdict_cat] at hcat
        rw [Option.some_inj] at hcat
        exact absurd (hcat ▸ hc2cs) hx
      · have hmem : p.1 ∈ pool.filter
            (fun it => !consumedCond ref (maxc x) x it) :=
          processCats_fst_mem hp
        have := (List.mem_filter.mp hmem).2
        simpa using this

/-! ## Counting lemmas: bucket uniqueness, minimality, quotas -/

theorem length_filter_eq_some_le_one {α : Type} [DecidableEq α] {l : List α}
    (hl : l.Nodup) (o : Option α) :
    (l.filter (fun x => decide (o = some x))).length ≤ 1 := by
  cases o with
  | none => simp
  | some w =>
    have heq : l.filter (fun x => decide (some w = some x)) =
        l.filter (fun x => x == w) := by
      apply List.filter_congr
      intro x _
      rcases eq_or_ne w x with rfl | h
      · simp
      · simp [h, Ne.symm h]
    rw [heq, ← List.countP_eq_length_filter]
    exact List.nodup_iff_count_le_one.mp hl w

theorem pass_accept_le_one {ref : Int} {c : Category} {consumed : List IItem}
    (h : consumed.Nodup) (n : Int) :
    ((consumed.map (fun it => (it, passVerdict ref c consumed it))).filter
      (fun q => decide (q.2 = Verdict.acceptedIn c n))).length ≤ 1 := by
  rw [List.filter_map, List.length_map]
  refine le_trans (List.Sublist.length_le ?_)
    (length_filter_eq_some_le_one h (minAgeFirst ref (bucket ref c n consumed)))
  apply List.monotone_filter_right
  intro it hit
  simp only [Function.comp] at hit
  rw [decide_eq_true_eq] at hit
  simp only [passVerdict] at hit
  split at hit
  · rename_i hmin
    injection hit with _ h2
    rw [decide_eq_true_eq]
    rwa [h2] at hmin
  · cases hit

theorem pass_accept_min {ref : Int} {c : Category} {consumed : List IItem}
    {itp itq : IItem} {n : Int}
    (hitq : itq ∈ consumed)
    (hap : passVerdict ref c consumed itp = .acceptedIn c n)
    (haq : passVerdict ref c consumed itq = .acceptedIn c n ∨
      passVerdict ref c consumed itq = .rejectedIn c n) :
    age ref itp.2 ≤ age ref itq.2 := by
  have hnq : unit_age (age ref itq.2) c = n := by
    simp only [passVerdict] at haq
    rcases haq with h | h <;> split at h <;> injection h
  have hbq : itq ∈ bucket ref c n consumed := by
    rw [bucket, List.mem_filter]
    exact ⟨hitq, by rw [decide_eq_true_eq]; exact hnq⟩
  simp only [passVerdict] at hap
  split at hap
  · rename_i hmin
    injection hap with _ h2
    rw [h2] at hmin
    exact minAgeFirst_le hmin itq hbq
  · cases hap

theorem processCats_accept_le_one {ref : Int} {maxc : Category → Nat} :
    ∀ {cats : List Category} {pool : List IItem}, cats.Nodup → pool.Nodup →
    ∀ (c : Category) (n : Int),
    ((processCats ref maxc cats pool).filter
      (fun q => decide (q.2 = Verdict.acceptedIn c n))).length ≤ 1 := by
  intro cats
  induction cats with
  | nil =>
    intro pool _ _ c n
    rw [processCats, List.filter_map, List.length_map]
    have : (pool.filter ((fun q => decide (q.2 = Verdict.acceptedIn c n)) ∘
        (fun it => (it, Verdict.rejectedUnclassified)))) = [] := by
      rw [List.filter_eq_nil_iff]
      intro a _
      simp
    rw [this]
    simp
  | cons x cs ih =>
    intro pool hnd hpool c n
    obtain ⟨hx, hcs⟩ := List.nodup_cons.mp hnd
    simp only [processCats, List.filter_append, List.length_append]
    by_cases hcx : c = x
    · subst hcx
      have h2 : ((processCats ref maxc cs
          (pool.filter (fun it => !consumedCond ref (maxc c) c it))).filter
          (fun q => decide (q.2 = Verdict.acceptedIn c n))) = [] := by
        rw [List.filter_eq_nil_iff]
        intro q hq hdec
        rw [decide_eq_true_eq] at hdec
        have hcat : q.2.cat? = some c := by rw [hdec]; rfl
        exact hx (processCats_cat_mem hq hcat)
      rw [h2]
      simpa using pass_accept_le_one (hpool.filter _) n
    · have h1 : (((pool.filter (consumedCond ref (maxc x) x)).map
          (fun it => (it, passVerdict ref x
            (pool.filter (consumedCond ref (maxc x) x)) it))).filter
          (fun q => decide (q.2 = Verdict.acceptedIn c n))) = [] := by
        rw [List.filter_eq_nil_iff]
        intro q hq hdec
        rw [decide_eq_true_eq] at hdec
        obtain ⟨it, _, rfl⟩ := List.mem_map.mp hq
        have hdec2 : passVerdict ref x
            (pool.filter (consumedCond ref (maxc x) x)) it =
            Verdict.acceptedIn c n := hdec
        have hcat := passVerdict_cat ref x
          (pool.filter (consumedCond ref (maxc x) x)) it
        rw [hdec2] at hcat
        simp only [Verdict.cat?, Option.some_inj] at hcat
        exact hcx hcat
      rw [h1]
      simpa using ih hcs (hpool.filter _) c n

theorem processCats_accept_min {ref : Int} {maxc : Category → Nat} :
    ∀ {cats : List Category} {pool : List IItem} {p q : IItem × Verdict}
    {c : Category} {n : Int}, cats.Nodup →
    p ∈ processCats ref maxc cats pool →
    q ∈ processCats ref maxc cats pool →
    p.2 = .acceptedIn c n →
    (q.2 = .acceptedIn c n ∨ q.2 = .rejectedIn c n) →
    age ref p.1.2 ≤ age ref q.1.2 := by
  intro cats
  induction cats with
  | nil =>
    intro pool p q c n _ hp _ hap _
    simp only [processCats, List.mem_map] at hp
    obtain ⟨it, _, rfl⟩ := hp
    cases hap
  | cons x cs ih =>
    intro pool p q c n hnd hp hq hap haq
    obtain ⟨hx, hcs⟩ := List.nodup_cons.mp hnd
    simp only [processCats, List.mem_append, List.mem_map] at hp hq
    rcases hp with ⟨itp, hitp, rfl⟩ | hp
    · have hpx : c = x := by
        have hcatp := passVerdict_cat ref x
          (pool.filter (consumedCond ref (maxc x) x)) itp
        simp only at hap
        rw [hap] at hcatp
        simp only [Verdict.cat?, Option.some_inj] at hcatp
        exact hcatp
      subst hpx
      rcases hq with ⟨itq, hitq, rfl⟩ | hq
      · exact pass_accept_min hitq hap haq
      · exfalso
        have hcatq : q.2.cat? = some c := by
          rcases haq with h | h <;> rw [h] <;> rfl
        exact hx (processCats_cat_mem hq hcatq)
    · rcases hq with ⟨itq, hitq, rfl⟩ | hq
      · exfalso
        have hqx : c = x := by
          have hcatq := passVerdict_cat ref x
            (pool.filter (consumedCond ref (maxc x) x)) itq
          simp only at haq
          rcases haq with h | h <;> rw [h] at hcatq <;>
            simp only [Verdict.cat?, Option.some_inj] at hcatq <;>
            exact hcatq
        have hcatp : p.2.cat? = some c := by rw [hap]; rfl
        have := processCats_cat_mem hp hcatp
        rw [hqx] at this
        exact hx this
      · exact ih hcs hp hq hap haq

theorem pass_accept_quota {ref : Int} {c : Category} {M : Nat}
    {consumed : List IItem} (hnd : consumed.Nodup)
    (hcons : ∀ it ∈ consumed, consumedCond ref M c it = true) :
    ((consumed.map (fun it => (it, passVerdict ref c consumed it))).filter
      (fun q => acceptedFor c q.2)).length ≤ M := by
  rw [List.filter_map, List.length_map]
  have hwin : ∀ it ∈ consumed.filter ((fun q => acceptedFor c q.2) ∘
      (fun it => (it, passVerdict ref c consumed it))),
      minAgeFirst ref
        (bucket ref c (unit_age (age ref it.2) c) consumed) = some it := by
    intro it hit
    have h2 := (List.mem_filter.mp hit).2
    simp only [Function.comp] at h2
    simp only [passVerdict] at h2
    split at h2
    · rename_i hmin
      exact hmin
    · simp [acceptedFor] at h2
  have hA : (consumed.filter ((fun q => acceptedFor c q.2) ∘
      (fun it => (it, passVerdict ref c consumed it)))).Nodup := hnd.filter _
  have hmapnd : ((consumed.filter ((fun q => acceptedFor c q.2) ∘
      (fun it => (it, passVerdict ref c consumed it)))).map
        (fun it => unit_age (age ref it.2) c)).Nodup := by
    refine hA.map_on ?_
    intro it1 h1 it2 h2 hu
    have w1 := hwin it1 h1
    have w2 := hwin it2 h2
    rw [hu] at w1
    rw [w1] at w2
    exact Option.some_inj.mp w2
  have hsubset : ∀ z ∈ ((consumed.filter ((fun q => acceptedFor c q.2) ∘
      (fun it => (it, passVerdict ref c consumed it)))).map
        (fun it => unit_age (age ref it.2) c)),
      z ∈ List.map (fun k : Nat => (k : Int)) (List.range' 1 M) := by
    intro z hz
    obtain ⟨it, hit, rfl⟩ := List.mem_map.mp hz
    have hmem : it ∈ consumed := (List.mem_filter.mp hit).1
    have hc := hcons it hmem
    rw [consumedCond, Bool.and_eq_true, decide_eq_true_eq,
      decide_eq_true_eq] at hc
    refine List.mem_map.mpr ⟨(unit_age (age ref it.2) c).toNat, ?_, by omega⟩
    rw [List.mem_range'_1]
    omega
  calc (consumed.filter ((fun q => acceptedFor c q.2) ∘
      (fun it => (it, passVerdict ref c consumed it)))).length
      = ((consumed.filter ((fun q => acceptedFor c q.2) ∘
        (fun it => (it, passVerdict ref c consumed it)))).map
          (fun it => unit_age (age ref it.2) c)).length := by
        rw [List.length_map]
    _ ≤ (List.map (fun k : Nat => (k : Int)) (List.range' 1 M)).length :=
        (List.subperm_of_subset hmapnd hsubset).length_le
    _ = M := by rw [List.length_map, List.length_range']

theorem processCats_quota_notmem {ref : Int} {maxc : Category → Nat}
    {cats : List Category} {pool : List IItem} {c : Category}
    (hc : c ∉ cats) :
    ((processCats ref maxc cats pool).filter
      (fun q => acceptedFor c q.2)) = [] := by
  rw [List.filter_eq_nil_iff]
  intro q hq hacc
  rcases processCats_verdict hq with h | ⟨c2, hc2, _, htag⟩
  · rw [h] at hacc; cases hacc
  · rcases htag with h | h <;> rw [h] at hacc
    · simp only [acceptedFor, beq_iff_eq] at hacc
      exact hc (hacc ▸ hc2)
    · cases hacc

theorem processCats_quota {ref : Int} {maxc : Category → Nat} :
    ∀ {cats : List Category} {pool : List IItem}, cats.Nodup → pool.Nodup →
    ∀ c : Category,
    ((processCats ref maxc cats pool).filter
      (fun q => acceptedFor c q.2)).length ≤ maxc c := by
  intro cats
  induction cats with
  | nil =>
    intro pool _ _ c
    rw [processCats, List.filter_map, List.length_map]
    have : (pool.filter ((fun q => acceptedFor c q.2) ∘
        (fun it => (it, Verdict.rejectedUnclassified)))) = [] := by
      rw [List.filter_eq_nil_iff]
      intro a _
      simp [acceptedFor]
    rw [this]
    simp
  | cons x cs ih =>
    intro pool hnd hpool c
    obtain ⟨hx, hcs⟩ := List.nodup_cons.mp hnd
    simp only [processCats, List.filter_append, List.length_append]
    by_cases hcx : c = x
    · subst hcx
      rw [processCats_quota_notmem hx]
      simp only [List.length_nil, Nat.add_zero]
      refine pass_accept_quota (hpool.filter _) ?_
      intro it hit
      exact (List.mem_filter.mp hit).2
    · have h1 : (((pool.filter (consumedCond ref (maxc x) x)).map
          (fun it => (it, passVerdict ref x
            (pool.filter (consumedCond ref (maxc x) x)) it))).filter
          (fun q => acceptedFor c q.2)) = [] := by
        rw [List.filter_eq_nil_iff]
        intro q hq hacc
        obtain ⟨it, _, rfl⟩ := List.mem_map.mp hq
        rcases passVerdict_eq ref x
            (pool.filter (consumedCond ref (maxc x) x)) it with h | h <;>
          simp only at hacc <;> rw [h] at hacc
        · simp only [acceptedFor, beq_iff_eq] at hacc
          exact hcx hacc
        · cases hacc
      rw [h1]
      simpa using ih hcs (hpool.filter _) c

/-! ## Lemmas about a whole classification run -/

theorem filter_tag_const_nil (l : List IItem) (v : Verdict)
    (P : IItem × Verdict → Bool) (hv : ∀ it : IItem, P (it, v) = false) :
    (l.map (fun it => (it, v))).filter P = [] := by
  rw [List.filter_eq_nil_iff]
  intro q hq
  obtain ⟨it, _, rfl⟩ := List.mem_map.mp hq
  simp [hv]

theorem filter_tag_const_self (l : List IItem) (v : Verdict)
    (P : IItem × Verdict → Bool) (hv : ∀ it : IItem, P (it, v) = true) :
    (l.map (fun it => (it, v))).filter P = l.map (fun it => (it, v)) := by
  rw [List.filter_eq_self]
  intro q hq
  obtain ⟨it, _, rfl⟩ := List.mem_map.mp hq
  simp [hv]

theorem classifyRun_fst_perm (items : List Item) (rules : Rules) (ref : Int) :
    List.Perm ((classifyRun items rules ref).map (fun p => p.1))
      (enumFrom 0 items) := by
  simp only [classifyRun, List.map_append, map_fst_tag]
  rw [List.append_assoc, ← List.append_assoc _ _
    ((processCats ref rules.maxcount linearCategories
      ((enumFrom 0 items).filter (fun it => !recentEligible ref it))).map
        (fun p => p.1)), List.take_append_drop]
  refine List.Perm.trans
    (List.Perm.append (sortByAge_perm ref _) (processCats_fst_perm _ _ _ _))
    ?_
  exact List.filter_append_perm _ _

theorem mem_classifyRun_cases {items : List Item} {rules : Rules} {ref : Int}
    {p : IItem × Verdict} (hp : p ∈ classifyRun items rules ref) :
    p.2 = .acceptedRecent ∨ p.2 = .rejectedRecent ∨
      p ∈ processCats ref rules.maxcount linearCategories
        ((enumFrom 0 items).filter (fun it => !recentEligible ref it)) := by
  simp only [classifyRun, List.mem_append, List.mem_map] at hp
  rcases hp with (⟨it, _, rfl⟩ | ⟨it, _, rfl⟩) | hp
  · exact Or.inl rfl
  · exact Or.inr (Or.inl rfl)
  · exact Or.inr (Or.inr hp)

/-- The accepted and the rejected collection together are a permutation of
the (indexed) input: the partition property of one run. -/
theorem filter_parts_perm (items : List Item) (rules : Rules) (ref : Int) :
    List.Perm ((TimeFilter.filter items rules ref).1 ++
      (TimeFilter.filter items rules ref).2) (enumFrom 0 items) := by
  simp only [TimeFilter.filter]
  rw [← List.map_append]
  exact List.Perm.trans (List.Perm.map _ (List.filter_append_perm _ _))
    (classifyRun_fst_perm items rules ref)

theorem linearCategories_nodup : linearCategories.Nodup := by decide

theorem linear_duration_pos : ∀ {c : Category}, c ∈ linearCategories →
    0 < c.duration := by
  intro c h
  revert h
  cases c <;> decide

/-! ## Claim theorems for the classification core (modelled from the spec) -/

/-- C1: for every list of items, every rule set and every reference time,
`filter` partitions the input: accepted and rejected together are a
permutation of the (position-indexed) input, their sizes add up to the
input size, and every input item lies in exactly one of the two. -/
theorem filter_partitions_input (items : List Item) (rules : Rules)
    (ref : Int) :
    List.Perm ((TimeFilter.filter items rules ref).1 ++
        (TimeFilter.filter items rules ref).2) (enumFrom 0 items) ∧
      (TimeFilter.filter items rules ref).1.length +
        (TimeFilter.filter items rules ref).2.length = items.length ∧
      ∀ x ∈ enumFrom 0 items,
        (x ∈ (TimeFilter.filter items rules ref).1 ∧
          x ∉ (TimeFilter.filter items rules ref).2) ∨
        (x ∈ (TimeFilter.filter items rules ref).2 ∧
          x ∉ (TimeFilter.filter items rules ref).1) := by
  have hperm := filter_parts_perm items rules ref
  refine ⟨hperm, ?_, ?_⟩
  · have hlen := hperm.length_eq
    rw [List.length_append] at hlen
    rw [hlen, enumFrom_length]
  · have hnodup : ((TimeFilter.filter items rules ref).1 ++
        (TimeFilter.filter items rules ref).2).Nodup :=
      hperm.nodup_iff.mpr enumFrom_nodup
    obtain ⟨_, _, hdisj⟩ := List.nodup_append.mp hnodup
    intro x hx
    rcases List.mem_append.mp (hperm.mem_iff.mpr hx) with h | h
    · exact Or.inl ⟨h, fun hc => hdisj h hc⟩
    · exact Or.inr ⟨h, fun hc => hdisj hc h⟩

/-- C2: in every run, at most one item is accepted per (category,
sub-index) bucket, and an accepted item of a bucket has minimal age among
all items attributed to that bucket (accepted or rejected there). -/
theorem bucket_winner_unique_minimal (items : List Item) (rules : Rules)
    (ref : Int) (c : Category) (n : Int) :
    ((classifyRun items rules ref).filter
      (fun q => decide (q.2 = Verdict.acceptedIn c n))).length ≤ 1 ∧
    ∀ p ∈ classifyRun items rules ref, p.2 = .acceptedIn c n →
      ∀ q ∈ classifyRun items rules ref,
        (q.2 = .acceptedIn c n ∨ q.2 = .rejectedIn c n) →
        age ref p.1.2 ≤ age ref q.1.2 := by
  constructor
  · simp only [classifyRun, List.filter_append, List.length_append]
    rw [filter_tag_const_nil _ Verdict.acceptedRecent _ (fun it => by simp),
      filter_tag_const_nil _ Verdict.rejectedRecent _ (fun it => by simp)]
    simpa using processCats_accept_le_one linearCategories_nodup
      (enumFrom_nodup.filter _) c n
  · intro p hp hap q hq haq
    rcases mem_classifyRun_cases hp with h | h | hL
    · rw [h] at hap; cases hap
    · rw [h] at hap; cases hap
    · rcases mem_classifyRun_cases hq with h | h | hLq
      · rw [h] at haq; rcases haq with h2 | h2 <;> cases h2
      · rw [h] at haq; rcases haq with h2 | h2 <;> cases h2
      · exact processCats_accept_min linearCategories_nodup hL hLq hap haq

/-- C3: an item whose unit-age for a younger linear category lies in that
category's quota range `[1, maxcount]` is consumed there and is never
attributed to any older category's bucket, accepted or rejected. -/
theorem consumed_never_reaches_older (items : List Item) (rules : Rules)
    (ref : Int) (c cOld : Category) (p : IItem × Verdict) (n : Int)
    (horder : List.Sublist [c, cOld] linearCategories)
    (hp : p ∈ classifyRun items rules ref)
    (hcons : consumedCond ref (rules.maxcount c) c p.1 = true) :
    p.2 ≠ .acceptedIn cOld n ∧ p.2 ≠ .rejectedIn cOld n := by
  constructor <;> intro htag
  all_goals {
    have hcat : p.2.cat? = some cOld := by rw [htag]; rfl
    rcases mem_classifyRun_cases hp with h | h | hL
    · rw [h] at hcat; cases hcat
    · rw [h] at hcat; cases hcat
    · have hfalse := processCats_consumed_not_later linearCategories_nodup
        horder hL hcat
      rw [hcons] at hfalse
      cases hfalse
  }

/-- C4: in every run each category contributes at most its quota of
accepted items (`recent` included), and with the all-zero rule set on a
non-empty input nothing is accepted and everything is rejected. -/
theorem quota_bound_and_zero_rules :
    (∀ (items : List Item) (rules : Rules) (ref : Int) (c : Category),
      ((classifyRun items rules ref).filter
        (fun q => acceptedFor c q.2)).length ≤ rules.maxcount c) ∧
    ∀ (items : List Item) (ref : Int), items ≠ [] →
      (TimeFilter.filter items Rules.zero ref).1 = [] ∧
      List.Perm (TimeFilter.filter items Rules.zero ref).2
        (enumFrom 0 items) := by
  constructor
  · intro items rules ref c
    simp only [classifyRun, List.filter_append, List.length_append]
    by_cases hc : c = Category.recent
    · subst hc
      rw [filter_tag_const_self _ Verdict.acceptedRecent _
          (fun it => by simp [acceptedFor]),
        filter_tag_const_nil _ Verdict.rejectedRecent _
          (fun it => by simp [acceptedFor]),
        processCats_quota_notmem (by decide)]
      simp only [List.length_map, List.length_nil, Nat.add_zero]
      have : Rules.maxcount rules Category.recent = rules.recent := rfl
      rw [this]
      exact le_trans (Nat.le_of_eq (by rw [List.length_take])) (by omega)
    · have hbeq : (c == Category.recent) = false := by
        rw [beq_eq_false_iff_ne]
        exact hc
      rw [filter_tag_const_nil _ Verdict.acceptedRecent _
          (fun it => by simp [acceptedFor, hbeq]),
        filter_tag_const_nil _ Verdict.rejectedRecent _
          (fun it => by simp [acceptedFor])]
      simpa using processCats_quota linearCategories_nodup
        (enumFrom_nodup.filter _) c
  · intro items ref _
    have haccnil : (TimeFilter.filter items Rules.zero ref).1 = [] := by
      simp only [TimeFilter.filter]
      rw [List.map_eq_nil_iff, List.filter_eq_nil_iff]
      intro q hq hacc
      rcases mem_classifyRun_cases hq with h | h | hL
      · -- no item can be accepted into recent with quota 0
        simp only [classifyRun, List.mem_append, List.mem_map] at hq
        rcases hq with (⟨it, hit, rfl⟩ | ⟨it, _, rfl⟩) | hq
        · have : Rules.zero.recent = 0 := rfl
          rw [this, List.take_zero] at hit
          cases hit
        · cases h
        · rcases processCats_verdict hq with h2 | ⟨c2, _, hcond, htag⟩
          · rw [h2] at h; cases h
          · rcases htag with h3 | h3 <;> rw [h3] at h <;> cases h
      · rw [h] at hacc; cases hacc
      · rcases processCats_verdict hL with h2 | ⟨c2, _, hcond, htag⟩
        · rw [h2] at hacc; cases hacc
        · have hzero : Rules.zero.maxcount c2 = 0 := by cases c2 <;> rfl
          rw [hzero, consumedCond, Bool.and_eq_true, decide_eq_true_eq,
            decide_eq_true_eq] at hcond
          omega
    refine ⟨haccnil, ?_⟩
    have hperm := filter_parts_perm items Rules.zero ref
    rwa [haccnil, List.nil_append] at hperm

/-- C5: for every age and every linear category, the unit-age is the real
floor of age divided by the category duration; an age of exactly `N`
durations belongs to unit `N` (one exact day is "1 day old"). -/
theorem unit_age_is_floor (a : Int) (c : Category)
    (hc : c ∈ linearCategories) :
    unit_age a c = Int.floor ((a : ℚ) / (c.duration : ℚ)) ∧
      (∀ N : Int, unit_age (N * (c.duration : Int)) c = N) ∧
      unit_age 86400 Category.days = 1 := by
  have hpos : 0 < c.duration := linear_duration_pos hc
  refine ⟨?_, ?_, by decide⟩
  · rw [unit_age, Int.fdiv_eq_ediv _ (Int.natCast_nonneg _)]
    exact (Rat.floor_intCast_div_natCast a c.duration).symm
  · intro N
    rw [unit_age, Int.mul_fdiv_cancel]
    exact_mod_cast hpos.ne'

/-- Witness for C5 at a concrete input: the weeks category with an exact
multiple of its duration. -/
theorem unit_age_is_floor_witness :
    unit_age (7 * ((Category.weeks.duration : Nat) : Int)) Category.weeks
      = 7 :=
  (unit_age_is_floor 0 Category.weeks (by decide)).2.1 7

/-- C6: the classifier is deterministic: identical items, rule set and
reference time give identical partitions. -/
theorem filter_deterministic (items1 items2 : List Item)
    (rules1 rules2 : Rules) (ref1 ref2 : Int) (h1 : items1 = items2)
    (h2 : rules1 = rules2) (h3 : ref1 = ref2) :
    TimeFilter.filter items1 rules1 ref1 =
      TimeFilter.filter items2 rules2 ref2 := by
  subst h1; subst h2; subst h3; rfl

/-- Witness for C6 at a concrete input. -/
theorem filter_deterministic_witness :
    TimeFilter.filter [⟨"a", -4000⟩] ⟨0, 12, 0, 0, 0, 0⟩ 0 =
      TimeFilter.filter [⟨"a", -4000⟩] ⟨0, 12, 0, 0, 0, 0⟩ 0 :=
  filter_deterministic _ _ _ _ _ _ rfl rfl rfl

/-- Witness for C1 at a concrete input. -/
theorem filter_partitions_input_witness :
    ((0, (⟨"a", -4000⟩ : Item)) ∈
        (TimeFilter.filter [⟨"a", -4000⟩] ⟨0, 12, 0, 0, 0, 0⟩ 0).1 ∧
      (0, (⟨"a", -4000⟩ : Item)) ∉
        (TimeFilter.filter [⟨"a", -4000⟩] ⟨0, 12, 0, 0, 0, 0⟩ 0).2) ∨
    ((0, (⟨"a", -4000⟩ : Item)) ∈
        (TimeFilter.filter [⟨"a", -4000⟩] ⟨0, 12, 0, 0, 0, 0⟩ 0).2 ∧
      (0, (⟨"a", -4000⟩ : Item)) ∉
        (TimeFilter.filter [⟨"a", -4000⟩] ⟨0, 12, 0, 0, 0, 0⟩ 0).1) :=
  (filter_partitions_input [⟨"a", -4000⟩] ⟨0, 12, 0, 0, 0, 0⟩ 0).2.2
    (0, ⟨"a", -4000⟩) (by decide)

/-- Witness for C2 at a concrete input: three items in the same hours
bucket; the newest accepted one is at least as new as a rejected one. -/
theorem bucket_winner_unique_minimal_witness :
    age 0 (⟨"y", -3650⟩ : Item) ≤ age 0 (⟨"x", -3700⟩ : Item) :=
  (bucket_winner_unique_minimal
      [⟨"x", -3700⟩, ⟨"y", -3650⟩, ⟨"z", -3800⟩] ⟨0, 2, 0, 0, 0, 0⟩ 0
      Category.hours 1).2
    ((1, ⟨"y", -3650⟩), Verdict.acceptedIn Category.hours 1) (by decide)
    rfl
    ((0, ⟨"x", -3700⟩), Verdict.rejectedIn Category.hours 1) (by decide)
    (Or.inr rfl)

/-- Witness for C3 at a concrete input: a nine-day-old item consumed by
`days` is not attributed to any `weeks` bucket. -/
theorem consumed_never_reaches_older_witness :
    ((0, (⟨"nine", -777600⟩ : Item)),
        Verdict.acceptedIn Category.days 9).2 ≠
        Verdict.acceptedIn Category.weeks 1 ∧
      ((0, (⟨"nine", -777600⟩ : Item)),
        Verdict.acceptedIn Category.days 9).2 ≠
        Verdict.rejectedIn Category.weeks 1 :=
  consumed_never_reaches_older [⟨"nine", -777600⟩] ⟨0, 0, 10, 1, 0, 0⟩ 0
    Category.days Category.weeks
    ((0, ⟨"nine", -777600⟩), Verdict.acceptedIn Category.days 9) 1
    (by decide) (by decide) (by decide)

/-- Witness for C4 at a concrete input: the all-zero rule set rejects a
non-empty input completely. -/
theorem quota_bound_and_zero_rules_witness :
    (TimeFilter.filter [⟨"a", -4000⟩] Rules.zero 0).1 = [] ∧
      List.Perm (TimeFilter.filter [⟨"a", -4000⟩] Rules.zero 0).2
        (enumFrom 0 [⟨"a", -4000⟩]) :=
  quota_bound_and_zero_rules.2 [⟨"a", -4000⟩] 0 (by decide)

/-! ## Lemmas about the rule parser -/

theorem parseToken_ok_key {t : List Char} {kv : String × Nat}
    (h : parseToken t = .ok kv) : kv.1 ∈ valid_categories := by
  rw [parseToken] at h
  split at h
  · cases h
  · split at h
    · split at h
      · rename_i hvalid
        injection h with h2
        rw [← h2]
        exact hvalid
      · cases h
    · cases h

theorem insertRule_keys {rules : List (String × Nat)} {k : String} {v : Nat}
    {P : String → Prop} (hr : ∀ p ∈ rules, P p.1) (hk : P k) :
    ∀ p ∈ insertRule rules k v, P p.1 := by
  intro p hp
  rw [insertRule] at hp
  split at hp
  · obtain ⟨q, hq, hpq⟩ := List.mem_map.mp hp
    by_cases hqk : q.1 == k
    · rw [if_pos hqk] at hpq
      rw [← hpq]
      exact hk
    · rw [if_neg (by simp [hqk])] at hpq
      rw [← hpq]
      exact hr q hq
  · rcases List.mem_append.mp hp with h | h
    · exact hr p h
    · rw [List.mem_singleton] at h
      rw [h]
      exact hk

theorem parseGo_keys : ∀ (ts : List (List Char))
    (acc rules : List (String × Nat)),
    (∀ p ∈ acc, p.1 ∈ valid_categories) →
    parseGo ts acc = .ok rules →
    ∀ p ∈ rules, p.1 ∈ valid_categories := by
  intro ts
  induction ts with
  | nil =>
    intro acc rules hacc h
    rw [parseGo] at h
    injection h with h2
    rw [← h2]
    exact hacc
  | cons t ts ih =>
    intro acc rules hacc h
    rw [parseGo] at h
    cases hpt : parseToken t with
    | error e => rw [hpt] at h; cases h
    | ok kv =>
      rw [hpt] at h
      exact ih _ _ (insertRule_keys hacc (parseToken_ok_key hpt)) h

theorem parseGo_isOk : ∀ (ts : List (List Char))
    (acc : List (String × Nat)),
    (parseGo ts acc).isOk = true ↔
      ∀ t ∈ ts, (parseToken t).isOk = true := by
  intro ts
  induction ts with
  | nil =>
    intro acc
    simp [parseGo, Except.isOk, Except.toBool]
  | cons t ts ih =>
    intro acc
    rw [parseGo]
    cases hpt : parseToken t with
    | error e =>
      simp only [List.forall_mem_cons, hpt]
      simp [Except.isOk, Except.toBool]
    | ok kv =>
      simp only [List.forall_mem_cons, hpt, ih]
      simp [Except.isOk, Except.toBool]

theorem searchAux_digits : ∀ (t acc letters digits : List Char),
    searchAux acc t = some (letters, digits) →
    digits ≠ [] ∧ ∀ ch ∈ digits, isDigit09 ch = true := by
  intro t
  induction t with
  | nil => intro acc l d h; cases h
  | cons ch rest ih =>
    intro acc l d h
    rw [searchAux] at h
    split at h
    · exact ih _ _ _ h
    · split at h
      · rename_i hcond
        rw [Bool.and_eq_true] at hcond
        injection h with h2
        injection h2 with h3 h4
        rw [← h4]
        refine ⟨by simp, ?_⟩
        intro x hx
        rcases List.mem_cons.mp hx with rfl | hx
        · exact hcond.1
        · exact List.mem_takeWhile_imp hx
      · exact ih _ _ _ h

theorem searchCatCount_nil : searchCatCount ([] : List Char) = none := rfl

theorem lookup_append_keys_ne {k : String} {v : Nat} :
    ∀ l : List (String × Nat), (∀ p ∈ l, (p.1 == k) = false) →
    (l ++ [(k, v)]).lookup k = some v := by
  intro l
  induction l with
  | nil => simp [List.lookup]
  | cons p ps ih =>
    intro h
    have h1 := h p (List.mem_cons_self p ps)
    obtain ⟨p1, p2⟩ := p
    have hk1 : (k == p1) = false := by
      rw [beq_eq_false_iff_ne] at h1 ⊢
      exact fun e => h1 e.symm
    rw [List.cons_append, List.lookup, hk1]
    exact ih (fun q hq => h q (List.mem_cons_of_mem _ hq))

theorem lookup_map_replace {k : String} {v : Nat} :
    ∀ l : List (String × Nat), l.any (fun q => q.1 == k) = true →
    (l.map (fun p => if p.1 == k then (k, v) else p)).lookup k = some v := by
  intro l
  induction l with
  | nil => intro h; cases h
  | cons p ps ih =>
    intro h
    obtain ⟨p1, p2⟩ := p
    by_cases hpk : (p1 == k) = true
    · simp only [List.map_cons]
      rw [if_pos hpk, List.lookup, beq_self_eq_true]
    · rw [List.any_cons] at h
      simp only [hpk, Bool.false_or] at h
      simp only [List.map_cons]
      rw [if_neg (by simp [hpk]), List.lookup]
      have hk1 : (k == p1) = false := by
        rw [beq_eq_false_iff_ne]
        intro e
        exact hpk (beq_iff_eq.mpr e.symm)
      rw [hk1]
      exact ih h

theorem insertRule_lookup (rules : List (String × Nat)) (k : String)
    (v : Nat) : (insertRule rules k v).lookup k = some v := by
  rw [insertRule]
  split
  · rename_i hany
    exact lookup_map_replace rules hany
  · rename_i hany
    refine lookup_append_keys_ne rules ?_
    intro p hp
    cases hb : (p.1 == k) with
    | false => rfl
    | true => exact absurd (List.any_eq_true.mpr ⟨p, hp, hb⟩) hany

theorem parseToken_cons (ch : Char) (r : List Char) :
    parseToken (ch :: r) =
      match searchCatCount (ch :: r) with
      | some (letters, digits) =>
        if String.mk letters ∈ valid_categories then
          .ok (String.mk letters, digitsToNat digits)
        else .error (.invalidCategory (String.mk letters))
      | none => .error (.invalidToken (String.mk (ch :: r))) := rfl

/-! ## Claim theorems for the rule parser (embedded from src/timegaps.py) -/

/-- C7 counterexample: a rules string with a duplicated category is not
rejected by `parse_rules_from_cmdline`; it parses successfully, the
second count silently overwriting the first. -/
theorem duplicate_category_not_rejected :
    parse_rules_from_cmdline ("hours1,hours2".data) = .ok [("hours", 2)] :=
  rfl

/-- C7 amended: a duplicated category does not make rule parsing fail:
parsing succeeds exactly when every comma token is individually well
formed, a stored count is overwritten in place by a later occurrence of
the same category (lookup after `insertRule` yields the new count), and
`hours1,hours2` parses to `hours = 2`. -/
theorem duplicate_category_overwrites :
    (∀ s : List Char, (parse_rules_from_cmdline s).isOk = true ↔
      ∀ t ∈ splitOnComma s, (parseToken t).isOk = true) ∧
    (∀ (rules : List (String × Nat)) (k : String) (v : Nat),
      (insertRule rules k v).lookup k = some v) ∧
    parse_rules_from_cmdline ("hours1,hours2".data) = .ok [("hours", 2)] :=
  ⟨fun s => parseGo_isOk (splitOnComma s) [], insertRule_lookup, rfl⟩

/-- Witness for C7 at a concrete input. -/
theorem duplicate_category_overwrites_witness :
    (parse_rules_from_cmdline ("hours1".data)).isOk = true :=
  (duplicate_category_overwrites.1 ("hours1".data)).mpr (by decide)

/-- C8 counterexample: the token `Xhours12Y` does not have the form
`<categoryname><nonneg-integer>` (extra leading and trailing characters),
yet the parser accepts it as `hours = 12` instead of rejecting it,
because the code uses `re.search` rather than a full-token match. -/
theorem malformed_token_not_rejected :
    parse_rules_from_cmdline ("Xhours12Y".data) = .ok [("hours", 12)] :=
  rfl

/-- C8 amended: empty tokens are rejected, as are tokens containing no
lowercase-letter run followed by a digit run; but a token only needs to
contain such a substring somewhere: the leftmost match alone decides the
rule and all surrounding characters are ignored, so `Xhours12Y` parses
as `hours = 12`. -/
theorem token_match_is_lenient :
    parseToken ([] : List Char) = .error .emptyToken ∧
    (∀ t : List Char, t ≠ [] → searchCatCount t = none →
      parseToken t = .error (.invalidToken (String.mk t))) ∧
    (∀ t letters digits : List Char, t ≠ [] →
      searchCatCount t = some (letters, digits) →
      String.mk letters ∈ valid_categories →
      parseToken t = .ok (String.mk letters, digitsToNat digits)) ∧
    parse_rules_from_cmdline ("Xhours12Y".data) = .ok [("hours", 12)] := by
  refine ⟨rfl, ?_, ?_, rfl⟩
  · intro t ht hnone
    cases t with
    | nil => exact absurd rfl ht
    | cons ch r => rw [parseToken_cons, hnone]
  · intro t letters digits ht hsome hvalid
    cases t with
    | nil => exact absurd rfl ht
    | cons ch r =>
      rw [parseToken_cons, hsome]
      exact if_pos hvalid

/-- Witness for C8 at a concrete input. -/
theorem token_match_is_lenient_witness :
    parseToken ("??".data) =
      .error (.invalidToken (String.mk ("??".data))) :=
  token_match_is_lenient.2.1 ("??".data) (by decide) (by decide)

/-- C9: a token whose matched category name is not one of the six
recognized names makes its own parse fail with an invalid-category error,
and the whole rules string is rejected: no rule set is returned. -/
theorem invalid_category_rejected (s t letters digits : List Char)
    (ht : t ∈ splitOnComma s)
    (hsearch : searchCatCount t = some (letters, digits))
    (hvalid : String.mk letters ∉ valid_categories) :
    parseToken t = .error (.invalidCategory (String.mk letters)) ∧
      (parse_rules_from_cmdline s).isOk = false := by
  have htne : t ≠ [] := by
    intro h
    rw [h, searchCatCount_nil] at hsearch
    cases hsearch
  have htok : parseToken t =
      .error (.invalidCategory (String.mk letters)) := by
    cases t with
    | nil => exact absurd rfl htne
    | cons ch r =>
      rw [parseToken_cons, hsearch]
      exact if_neg hvalid
  refine ⟨htok, ?_⟩
  cases hok : (parse_rules_from_cmdline s).isOk with
  | false => rfl
  | true =>
    have hall := (parseGo_isOk (splitOnComma s) []).mp hok
    have h2 := hall t ht
    rw [htok] at h2
    simp [Except.isOk, Except.toBool] at h2

/-- Witness for C9 at a concrete input. -/
theorem invalid_category_rejected_witness :
    parseToken ("bogus3".data) =
      .error (.invalidCategory (String.mk ("bogus".data))) ∧
    (parse_rules_from_cmdline ("bogus3".data)).isOk = false :=
  invalid_category_rejected ("bogus3".data) ("bogus3".data) ("bogus".data)
    ("3".data) (by decide) (by decide) (by decide)

/-- C10: the parser is total up to its declared `ValueError`: whenever it
returns a rule dictionary, every key is one of the recognized category
names (counts are `Nat` by construction, hence non-negative), and every
count substring produced by the regex search is a non-empty string of
decimal digits, so its integer conversion cannot fail. -/
theorem parse_total_and_valid :
    (∀ (s : List Char) (rules : List (String × Nat)),
      parse_rules_from_cmdline s = .ok rules →
      ∀ p ∈ rules, p.1 ∈ valid_categories) ∧
    ∀ t letters digits : List Char,
      searchCatCount t = some (letters, digits) →
      digits ≠ [] ∧ ∀ ch ∈ digits, isDigit09 ch = true := by
  constructor
  · intro s rules h
    refine parseGo_keys (splitOnComma s) [] rules ?_ h
    intro p hp
    cases hp
  · intro t letters digits h
    exact searchAux_digits t [] letters digits h

/-- Witness for C10 at a concrete input. -/
theorem parse_total_and_valid_witness :
    ("hours" : String) ∈ valid_categories :=
  parse_total_and_valid.1 ("hours3".data) [("hours", 3)] rfl ("hours", 3)
    (by decide)

end Timegaps
